import Mathlib

/- Verification of the taxo-morph repository: a shallow embedding of the
   data-loading module (src/data.py) and of the taxonomic-loss model head
   (src/taxonomic_loss_model.py), together with theorems checking the
   specification's claims against the embedded code. -/

set_option maxRecDepth 8000

/-! ## Python string primitives used by data.py -/

/-- The whitespace characters of Python's str.strip and of the regex class \s. -/
def isPyWs (c : Char) : Bool :=
  c = ' ' || c = '\t' || c = '\n' || c = '\r' || c = '\x0b' || c = '\x0c'

/-- Python s.strip(): remove leading and trailing whitespace. -/
def pyStrip (s : String) : String :=
  ⟨((s.data.dropWhile isPyWs).reverse.dropWhile isPyWs).reverse⟩

/-- Python s[:n] for n ≥ 0. -/
def pyTake (s : String) (n : ℕ) : String := ⟨s.data.take n⟩

/-- Python s[n:] for n ≥ 0. -/
def pyDrop (s : String) (n : ℕ) : String := ⟨s.data.drop n⟩

/-! ## data.py: the IGTLine record -/

/-- IGTLine.  All four text fields are modelled as optional because the loader
    constructs records from a 4-slot buffer whose slots may be unfilled. -/
structure IGTLine where
  transcription : Option String
  segmentation : Option String
  glosses : Option String
  translation : Option String
  should_segment : Bool
  deriving DecidableEq, Repr

/-- IGTLine.__init__: the should_segment flag is always initialised to true. -/
def mkIGTLine (transcription segmentation glosses translation : Option String) : IGTLine :=
  ⟨transcription, segmentation, glosses, translation, true⟩

/-- re.split of a string on maximal whitespace runs, keeping the empty boundary
    pieces that re.split produces at the two ends. -/
def splitWsAux : List Char → List Char → List String
  | [], cur => [⟨cur.reverse⟩]
  | c :: rest, cur =>
    if isPyWs c then ⟨cur.reverse⟩ :: splitWsAux (rest.dropWhile isPyWs) []
    else splitWsAux rest (c :: cur)
termination_by l _ => l.length
decreasing_by
  · exact Nat.lt_succ_of_le (List.dropWhile_sublist isPyWs).length_le
  · exact Nat.lt_succ_of_le (Nat.le_refl rest.length)

/-- Python s.split() with no argument: whitespace split, dropping empties. -/
def pySplit (s : String) : List String :=
  (splitWsAux s.data []).filter (fun w => w ≠ "")

/-- functools.reduce(lambda a, b: a + SEP + b, glosses): none models the
    TypeError that reduce raises on an empty sequence. -/
def sepReduce : List (List String) → Option (List String)
  | [] => none
  | x :: rest => some (rest.foldl (fun a b => a ++ ["[SEP]"] ++ b) x)

/-- IGTLine.gloss_list (src/data.py lines 27-41).  Except value: ok none models
    a returned Python None, ok (some l) a returned list, error () a raised
    exception.  The glosses-absent branch returns the empty list. -/
def glossList (line : IGTLine) (segmented : Bool) : Except Unit (Option (List String)) :=
  match line.glosses with
  | none => .ok (some [])
  | some g =>
    if !segmented then .ok (some (pySplit g))
    else
      let words := splitWsAux g.data []
      let glosses1 := words.map (fun w => w.splitOn "-")
      let glosses2 := glosses1.map (fun wgs => wgs.filter (fun x => x ≠ ""))
      let glosses3 := glosses2.filter (fun wgs => wgs ≠ [])
      match sepReduce glosses3 with
      | none => .error ()
      | some r => .ok (some r)

/-! ## data.py: load_data_file -/

/-- The 4-slot pending-record buffer of load_data_file (transc, segm, gloss,
    transl). -/
structure Entry4 where
  t : Option String
  m : Option String
  p : Option String
  l : Option String
  deriving DecidableEq, Repr

def Entry4.empty : Entry4 := ⟨none, none, none, none⟩

/-- One iteration of the line loop of load_data_file (src/data.py lines 67-95),
    with the source's branch order: tag branches guarded by the slot being
    still unfilled, then the skip of non-blank unrecognized lines, then the
    blank-line finalization of a non-empty pending record. -/
def loadStep (st : Entry4 × List IGTLine) (line : String) : Entry4 × List IGTLine :=
  let e := st.1
  let acc := st.2
  if pyTake line 2 = "\\t" ∧ e.t = none then
    ({ e with t := some (pyStrip (pyDrop line 3)) }, acc)
  else if pyTake line 2 = "\\m" ∧ e.m = none then
    ({ e with m := some (pyStrip (pyDrop line 3)) }, acc)
  else if pyTake line 2 = "\\p" ∧ e.p = none then
    if 0 < (pyStrip (pyDrop line 3)).length then
      ({ e with p := some (pyStrip (pyDrop line 3)) }, acc)
    else (e, acc)
  else if pyTake line 2 = "\\l" ∧ e.l = none then
    (Entry4.empty, acc ++ [mkIGTLine e.t e.m e.p (some (pyStrip (pyDrop line 3)))])
  else if pyStrip line ≠ "" then
    (e, acc)
  else if e ≠ Entry4.empty then
    (Entry4.empty, acc ++ [mkIGTLine e.t e.m e.p none])
  else (e, acc)

/-- load_data_file (src/data.py lines 60-102), over the file's lines.  Lines
    carry no trailing newline: every operation the loop performs on a line
    (the 2-character prefix, s[3:].strip(), s.strip()) is insensitive to it.
    After the loop, a still-pending non-empty record is flushed with
    translation absent. -/
def loadDataFile (lines : List String) : List IGTLine :=
  let r := lines.foldl loadStep (Entry4.empty, [])
  if r.1 ≠ Entry4.empty then r.2 ++ [mkIGTLine r.1.t r.1.m r.1.p none] else r.2

/-! ## data.py: create_vocab -/

/-- The module-level special token list of data.py (declared twice there with
    identical contents, lines 12 and 105). -/
def specialChars : List String := ["[UNK]", "[SEP]", "[PAD]", "[MASK]"]

/-- Python str.isupper(): at least one cased character and no cased character
    that is not upper-case (for this corpus's ASCII data, cased = alphabetic). -/
def pyIsUpper (s : String) : Bool :=
  s.data.any (fun c => c.isAlpha) && s.data.all (fun c => !c.isAlpha || c.isUpper)

/-- Python str.lower(), character by character (ASCII). -/
def pyLower (s : String) : String := ⟨s.data.map Char.toLower⟩

/-- The per-token normalisation of create_vocab: stems are lowered, fully
    upper-case tokens (grams) stay as they are, lowering can be disabled. -/
def normWord (shouldNotLower : Bool) (w : String) : String :=
  if !pyIsUpper w && !shouldNotLower then pyLower w else w

/-- Python all_words[word] = all_words.get(word, 0) + 1 on an insertion-ordered
    counting dict, modelled as an association list. -/
def bumpCount : List (String × ℕ) → String → List (String × ℕ)
  | [], w => [(w, 1)]
  | (x, n) :: rest, w =>
    if x = w then (x, n + 1) :: rest else (x, n) :: bumpCount rest w

/-- The per-word body of create_vocab's counting loop: normalise, skip special
    tokens, count. -/
def countStep (shouldNotLower : Bool) (cs : List (String × ℕ)) (w0 : String) :
    List (String × ℕ) :=
  let w := normWord shouldNotLower w0
  if w ∈ specialChars then cs else bumpCount cs w

/-- The counting loop of create_vocab: the all_words dict after both nested
    for loops (absent sentences skipped). -/
def vocabCounts (sentences : List (Option (List String))) (shouldNotLower : Bool) :
    List (String × ℕ) :=
  sentences.foldl
    (fun cs sent =>
      match sent with
      | none => cs
      | some ws => ws.foldl (countStep shouldNotLower) cs) []

/-- create_vocab (src/data.py lines 108-126): count normalised non-special
    tokens over the non-absent sentences, keep the ones meeting the threshold,
    return them sorted. -/
def createVocab (sentences : List (Option (List String))) (threshold : ℕ)
    (shouldNotLower : Bool) : List String :=
  (((vocabCounts sentences shouldNotLower).filter
      (fun p => threshold ≤ p.2)).map Prod.fst).insertionSort (· ≤ ·)

/-- The count stored for w in the counting dict (0 when absent). -/
def lookupCount : List (String × ℕ) → String → ℕ
  | [], _ => 0
  | (x, n) :: rest, w => if x = w then n else lookupCount rest w

/-- The number of occurrences of w in the normalised token stream of the given
    sentences (absent sentences skipped); the reference count for the
    characterization of create_vocab. -/
def streamCount (sentences : List (Option (List String))) (shouldNotLower : Bool)
    (w : String) : ℕ :=
  (((sentences.filterMap id).flatten).map (normWord shouldNotLower)).count w

/-! ## data.py: create_gloss_vocab and the morphology tree -/

/-- An item of the externally supplied morphology taxonomy: either a leaf gloss
    tag, or a (group label, children) pair; a tree is a list of items. -/
inductive MorphItem where
  | leaf (tag : String)
  | group (label : String) (children : List MorphItem)

/-- The parse_tree helper of create_gloss_vocab (src/data.py lines 130-137):
    depth-first concatenation of all leaf tags. -/
def parseTreeGlosses : List MorphItem → List String
  | [] => []
  | MorphItem.leaf s :: rest => s :: parseTreeGlosses rest
  | MorphItem.group _ children :: rest =>
    parseTreeGlosses children ++ parseTreeGlosses rest

/-- create_gloss_vocab (src/data.py lines 129-139). -/
def createGlossVocab (morphology : List MorphItem) : List String :=
  parseTreeGlosses morphology

/-! ## data.py: prepare_dataset -/

/-- The contract of the external word-level encoder (spec §6.5): elementwise
    id conversion, a PAD id, and a fixed maximum sequence length. -/
structure WordLevelTok where
  toId : String → ℕ
  PAD_ID : ℕ
  model_max_length : ℕ

/-- One encoded example produced by prepare_dataset's process closure. -/
structure EncodedRow where
  input_ids : List ℕ
  attention_mask : List ℕ
  labels : Option (List ℤ)
  deriving DecidableEq, Repr

/-- Python list.index(x): the first index of x, error (none) when absent. -/
def pyListIndex : List String → String → Option ℕ
  | [], _ => none
  | y :: rest, x => if y = x then some 0 else (pyListIndex rest x).map (· + 1)

/-- The process closure of prepare_dataset (src/data.py lines 163-186): encode
    the morphemes, right-pad with PAD up to model_max_length, build the
    attention mask, and — when glosses are present — encode the glosses as
    label-vocabulary indices right-padded with -100.  none models the lookup
    error raised by labels.index on an out-of-vocabulary gloss. -/
def processRow (tok : WordLevelTok) (labels : List String)
    (morphemes : List String) (glosses : Option (List String)) : Option EncodedRow :=
  let sourceEnc := morphemes.map tok.toId
  let initialLength := sourceEnc.length
  let sourcePadded :=
    sourceEnc ++ List.replicate (tok.model_max_length - initialLength) tok.PAD_ID
  let attentionMask :=
    List.replicate initialLength 1 ++ List.replicate (tok.model_max_length - initialLength) 0
  match glosses with
  | some gs =>
    match gs.mapM (pyListIndex labels) with
    | none => none
    | some outputEnc =>
      let outputEncZ := outputEnc.map Int.ofNat
        ++ List.replicate (tok.model_max_length - outputEnc.length) (-100 : ℤ)
      some ⟨sourcePadded, attentionMask, some outputEncZ⟩
  | none => some ⟨sourcePadded, attentionMask, none⟩

/-- prepare_dataset applied to one IGTLine: the row dict carries the line's
    morphemes (absent when segmentation is absent, in which case the process
    closure's row lookup fails) and its gloss list when glosses are present.
    The external morpheme tokenizer is a parameter (spec §6.5). -/
def prepareDatasetRow (tokenize : String → List String) (tok : WordLevelTok)
    (labels : List String) (line : IGTLine) : Option EncodedRow :=
  match line.segmentation with
  | none => none
  | some seg =>
    match line.glosses with
    | none => processRow tok labels (tokenize seg) none
    | some _ =>
      match glossList line line.should_segment with
      | .error _ => none
      | .ok gl => processRow tok labels (tokenize seg) gl

/-! ## taxonomic_loss_model.py: get_hierarchy_matrix -/

/-- The recursive parse_tree of get_hierarchy_matrix (src/taxonomic_loss_model.py
    lines 44-57), with the matrix threaded as explicit state.  Per item: while
    start_tag is 0 the item is skipped and start_tag becomes 1; a group recurses
    with the extended ancestor prefix read from the predecessor row; a leaf row
    is the predecessor row incremented elementwise, its first entries then
    overwritten by the ancestor prefix. -/
def parseTreeM : List MorphItem → List ℤ → ℕ → List (List ℤ) → List (List ℤ) × ℕ
  | [], _, startTag, m => (m, startTag)
  | item :: rest, pfx, startTag, m =>
    if startTag = 0 then parseTreeM rest pfx 1 m
    else
      match item with
      | MorphItem.group _ children =>
        let newPfx := pfx ++ [(m.getD (startTag - 1) []).getD pfx.length 0 + 1]
        let r := parseTreeM children newPfx startTag m
        parseTreeM rest pfx r.2 r.1
      | MorphItem.leaf _ =>
        let newRow := (m.getD (startTag - 1) []).map (· + 1)
        let written := pfx ++ newRow.drop pfx.length
        parseTreeM rest pfx (startTag + 1) (m.set startTag written)

/-- get_hierarchy_matrix (src/taxonomic_loss_model.py lines 39-60): start from
    an all-zero num_tags × max_depth matrix and run the traversal with the empty
    prefix and start_tag 0. -/
def getHierarchyMatrix (tree : List MorphItem) (numTags maxDepth : ℕ) : List (List ℤ) :=
  (parseTreeM tree [] 0 (List.replicate numTags (List.replicate maxDepth 0))).1

/-! ## taxonomic_loss_model.py: taxonomic_loss -/

/-- Line 64: labels[labels == -100] = 66 — the sentinel substitution applied to
    one entry of the labels tensor. -/
def substLabel (x : ℤ) : ℤ := if x = -100 then 66 else x

/-- The whole in-place rewrite labels[labels == -100] = 66. -/
def substLabels (labels : List ℤ) : List ℤ := labels.map substLabel

/-- The in-place frame effect of forward on the caller's 2-D labels tensor:
    forward (lines 124-127) hands labels.view(-1) — an alias of the caller's
    storage — to taxonomic_loss, whose first statement rewrites every -100
    entry to 66, so after the call the caller's tensor holds the substituted
    values. -/
def forwardLabelsAfter (labels : List (List ℤ)) : List (List ℤ) :=
  labels.map substLabels

/-- The value of row i of the hierarchy matrix at column lvl. -/
def colVal (M : List (List ℤ)) (lvl : ℕ) (i : ℕ) : ℤ := (M.getD i []).getD lvl 0

/-- pandas groupby(by=lvl) keys: the distinct values of column lvl in ascending
    order (pandas sorts group keys by default). -/
def groupKeys (M : List (List ℤ)) (lvl : ℕ) : List ℤ :=
  ((M.map (fun r => r.getD lvl 0)).dedup).insertionSort (· ≤ ·)

/-- The row indices belonging to the group with key k at level lvl. -/
def groupIdxs (M : List (List ℤ)) (lvl : ℕ) (k : ℤ) : List ℕ :=
  (List.range M.length).filter (fun i => decide (colVal M lvl i = k))

/-- One token's group logits at a level: for each group, in key order, the sum
    of the token's logits over the flat labels of that group (line 74). -/
def groupLogitsRow (M : List (List ℤ)) (lvl : ℕ) (row : List ℝ) : List ℝ :=
  (groupKeys M lvl).map (fun k => ((groupIdxs M lvl k).map (fun i => row.getD i 0)).sum)

/-- numpy row lookup into vstack([hierarchy_matrix, [-100] * cols]) at column
    lvl (line 77): negative indices wrap by the row count, out-of-range indices
    raise (none), the appended sentinel row yields -100. -/
def lookupGroupLabel (M : List (List ℤ)) (lvl : ℕ) (x : ℤ) : Option ℤ :=
  let n : ℤ := M.length
  let idx : ℤ := if x < 0 then x + (n + 1) else x
  if 0 ≤ idx ∧ idx ≤ n then
    if idx = n then some (-100) else some ((M.getD idx.toNat []).getD lvl 0)
  else none

/-- The group labels of one level: every (already substituted) label mapped
    through the sentinel-extended hierarchy matrix. -/
def levelTargets (M : List (List ℤ)) (lvl : ℕ) (labels : List ℤ) : Option (List ℤ) :=
  labels.mapM (lookupGroupLabel M lvl)

/-- The value the sentinel-extended lookup produces for an in-range,
    non-negative row index: -100 for the appended sentinel row, the matrix
    entry otherwise. -/
def tgtVal (M : List (List ℤ)) (lvl : ℕ) (x : ℤ) : ℤ :=
  if x = (M.length : ℤ) then -100 else (M.getD x.toNat []).getD lvl 0

/-- CrossEntropyLoss target validity: every non-ignored target must be a class
    index in [0, numClasses); otherwise torch raises. -/
def targetsValid (numClasses : ℕ) (ts : List ℤ) : Bool :=
  ts.all (fun t => decide (t = -100 ∨ (0 ≤ t ∧ t < (numClasses : ℤ))))

/-- -log softmax(xs)[c], the per-position summand of cross-entropy. -/
noncomputable def negLogSoftmax (xs : List ℝ) (c : ℕ) : ℝ :=
  -Real.log (Real.exp (xs.getD c 0) / ∑ i ∈ Finset.range xs.length, Real.exp (xs.getD i 0))

/-- nn.CrossEntropyLoss() with its defaults (mean reduction, ignore_index
    -100): the mean of -log softmax over the non-ignored positions.  The model
    is real-valued: the 0/0 of a fully ignored batch is the real number 0 here
    where torch produces NaN — in both cases nothing is raised. -/
noncomputable def ceMean (logitRows : List (List ℝ)) (ts : List ℤ) : ℝ :=
  let contrib := (logitRows.zip ts).filter (fun p => decide (p.2 ≠ -100))
  ((contrib.map (fun p => negLogSoftmax p.1 p.2.toNat)).sum) / contrib.length

/-- One level of taxonomic_loss (lines 69-85): group the logits, derive the
    group labels through the sentinel-extended matrix, take cross-entropy.
    none models a raised error: a row index out of the vstacked matrix, an
    out-of-range class target, or the input/target batch-size mismatch torch
    rejects. -/
noncomputable def levelLoss (M : List (List ℤ)) (logits : List (List ℝ))
    (labels : List ℤ) (lvl : ℕ) : Option ℝ :=
  match levelTargets M lvl labels with
  | none => none
  | some ts =>
    if logits.length = labels.length ∧ targetsValid (groupKeys M lvl).length ts = true then
      some (ceMean (logits.map (groupLogitsRow M lvl)) ts)
    else none

/-- The real value a level contributes when no error occurs. -/
noncomputable def levelLossVal (M : List (List ℤ)) (logits : List (List ℝ))
    (labels : List ℤ) (lvl : ℕ) : ℝ :=
  ceMean (logits.map (groupLogitsRow M lvl)) ((levelTargets M lvl labels).getD [])

/-- taxonomic_loss (src/taxonomic_loss_model.py lines 63-86): substitute the
    sentinel into the labels, then accumulate the five level losses.  The outer
    option is raising (a none level aborts); the inner option is the Python
    all_loss accumulator, None until the first level lands. -/
noncomputable def taxonomicLoss (M : List (List ℤ)) (logits : List (List ℝ))
    (labels : List ℤ) : Option (Option ℝ) :=
  let labels' := substLabels labels
  (List.range 5).foldl
    (fun acc lvl =>
      match acc with
      | none => none
      | some a =>
        match levelLoss M logits labels' lvl with
        | none => none
        | some l =>
          match a with
          | none => some (some l)
          | some a0 => some (some (a0 + l)))
    (some none)

/-- The validity of an installed hierarchy matrix, as taxonomic_loss relies on
    it: exactly 66 rows (the hard-coded num_labels, so that the -100 ↦ 66
    sentinel substitution lands on the appended sentinel row), at least the 5
    hard-coded levels per row, and at each level group keys that are exactly
    0, …, G-1 — so that a matrix value, used by the code as a class index into
    the sorted-group-order logits, denotes its own group. -/
def validHierarchyMatrix (M : List (List ℤ)) : Bool :=
  decide (M.length = 66)
  && M.all (fun r => decide (5 ≤ r.length))
  && (List.range 5).all (fun lvl =>
      decide (groupKeys M lvl = (List.range (groupKeys M lvl).length).map Int.ofNat))

/-- A batch label as produced by the data pipeline: the ignore-index or a flat
    gloss label id in [0, 66). -/
def validLabel (x : ℤ) : Bool := decide (x = -100 ∨ (0 ≤ x ∧ x < 66))

/-- Concrete hierarchy matrix for exercising the loss theorems: 66 rows of 5
    zero levels (a single group at every level). -/
def flatMatrix66 : List (List ℤ) := List.replicate 66 (List.replicate 5 0)

/-- Concrete encoder for exercising the dataset-preparation theorems. -/
def tokW : WordLevelTok := ⟨fun _ => 7, 0, 64⟩

/-- Concrete external morpheme tokenizer: one morpheme, the whole string. -/
def tokenizeW : String → List String := fun s => [s]

/-- Concrete IGT line with a segmentation and no glosses. -/
def lineW : IGTLine := mkIGTLine none (some "a") none none

/-- The encoded row tokW/tokenizeW produce for lineW. -/
def rowW : EncodedRow := ⟨7 :: List.replicate 63 0, 1 :: List.replicate 63 0, none⟩

/-- Concrete short-length encoder for the label-padding theorem. -/
def tokV : WordLevelTok := ⟨fun _ => 7, 0, 4⟩

/-- The encoded row tokV produces for one morpheme glossed G2 over the label
    vocabulary [G1, G2]. -/
def rowV : EncodedRow := ⟨[7, 0, 0, 0], [1, 0, 0, 0], some [1, -100, -100, -100]⟩

/-! ## Helper lemmas -/

theorem pyStrip_eq_empty_all_ws {s : String} (h : pyStrip s = "") :
    ∀ c ∈ s.data, isPyWs c = true := by
  intro c hc
  have hd : ((s.data.dropWhile isPyWs).reverse.dropWhile isPyWs).reverse = [] :=
    congrArg String.data h
  have hd2 : (s.data.dropWhile isPyWs).reverse.dropWhile isPyWs = [] := by
    simpa using hd
  have hdrop : ∀ x ∈ s.data.dropWhile isPyWs, isPyWs x = true := by
    intro x hx
    exact List.dropWhile_eq_nil_iff.1 hd2 x (List.mem_reverse.2 hx)
  have hsplit := List.takeWhile_append_dropWhile (p := isPyWs) (l := s.data)
  rcases List.mem_append.1 (hsplit ▸ hc) with h1 | h2
  · exact List.mem_takeWhile_imp h1
  · exact hdrop c h2

theorem blank_line_no_tag {line : String} (h : pyStrip line = "") {tag : String}
    (c : Char) (rest : List Char) (hdata : tag.data = c :: rest)
    (hc : isPyWs c = false) : pyTake line 2 ≠ tag := by
  intro he
  have hdat : line.data.take 2 = c :: rest := by
    have := congrArg String.data he
    simpa [pyTake, hdata] using this
  have hcmem : c ∈ line.data :=
    List.take_subset 2 line.data (hdat ▸ List.mem_cons_self c rest)
  rw [pyStrip_eq_empty_all_ws h c hcmem] at hc
  exact Bool.noConfusion hc

/-- On a blank line, loadStep either drops an all-empty pending record or
    finalizes a non-empty one with translation absent. -/
theorem loadStep_blank (e : Entry4) (acc : List IGTLine) (line : String)
    (hblank : pyStrip line = "") :
    loadStep (e, acc) line =
      if e = Entry4.empty then (e, acc)
      else (Entry4.empty, acc ++ [mkIGTLine e.t e.m e.p none]) := by
  have h1 : pyTake line 2 ≠ "\\t" := blank_line_no_tag hblank '\\' ['t'] rfl (by decide)
  have h2 : pyTake line 2 ≠ "\\m" := blank_line_no_tag hblank '\\' ['m'] rfl (by decide)
  have h3 : pyTake line 2 ≠ "\\p" := blank_line_no_tag hblank '\\' ['p'] rfl (by decide)
  have h4 : pyTake line 2 ≠ "\\l" := blank_line_no_tag hblank '\\' ['l'] rfl (by decide)
  simp only [loadStep]
  rw [if_neg (fun hand => h1 hand.1), if_neg (fun hand => h2 hand.1),
    if_neg (fun hand => h3 hand.1), if_neg (fun hand => h4 hand.1),
    if_neg (fun hne => hne hblank)]
  by_cases he : e = Entry4.empty
  · simp [he]
  · simp [he]

theorem getD_map_lt {α β : Type _} (f : α → β) (l : List α) (j : ℕ) (hj : j < l.length)
    (d : β) (d' : α) : (l.map f).getD j d = f (l.getD j d') := by
  simp [List.getD_eq_getElem?_getD, List.getElem?_map, List.getElem?_eq_getElem hj,
    List.getElem?_eq_getElem (by simpa using hj : j < (l.map f).length)]

theorem substLabels_no_ignore (r : List ℤ) : ∀ x ∈ substLabels r, x ≠ -100 := by
  intro x hx
  rcases List.mem_map.1 hx with ⟨y, _, rfl⟩
  unfold substLabel
  by_cases hy : y = -100 <;> simp [hy]

/-! ## Claim theorems -/

/-- C3: on the four-line block \t A B / \m A-B / \p G1 G2 / \l translation,
    load_data_file yields exactly one record with those four field values; the
    \l line finalizes and emits the pending record immediately, with no blank
    line in the input. -/
theorem loadDataFile_translation_terminated_block :
    loadDataFile ["\\t A B", "\\m A-B", "\\p G1 G2", "\\l translation"]
      = [mkIGTLine (some "A B") (some "A-B") (some "G1 G2") (some "translation")] := by
  decide

/-- C4: a blank line after a partially filled pending record emits exactly one
    record with translation absent and resets the buffer; a blank line on an
    all-empty pending record emits nothing (so a second consecutive blank line
    is a no-op); and end-of-file flushes a still-pending non-empty record
    exactly as a final blank line would (translation absent). -/
theorem loadDataFile_blank_and_eof (e : Entry4) (acc : List IGTLine) (line : String)
    (hblank : pyStrip line = "") :
    (e ≠ Entry4.empty →
      loadStep (e, acc) line = (Entry4.empty, acc ++ [mkIGTLine e.t e.m e.p none]))
    ∧ (e = Entry4.empty → loadStep (e, acc) line = (e, acc))
    ∧ loadStep (loadStep (e, acc) line) line = loadStep (e, acc) line
    ∧ ∀ lines : List String, loadDataFile (lines ++ [""]) = loadDataFile lines := by
  refine ⟨?_, ?_, ?_, ?_⟩
  · intro hne
    rw [loadStep_blank e acc line hblank, if_neg hne]
  · intro he
    rw [loadStep_blank e acc line hblank, if_pos he]
  · by_cases he : e = Entry4.empty
    · rw [loadStep_blank e acc line hblank, if_pos he, loadStep_blank e acc line hblank,
        if_pos he]
    · rw [loadStep_blank e acc line hblank, if_neg he,
        loadStep_blank Entry4.empty (acc ++ [mkIGTLine e.t e.m e.p none]) line hblank,
        if_pos rfl]
  · intro lines
    show loadDataFile (lines ++ [""]) = loadDataFile lines
    unfold loadDataFile
    rw [List.foldl_append]
    have hfold : ∀ r : Entry4 × List IGTLine,
        List.foldl loadStep r [""] = loadStep r "" := fun _ => rfl
    rcases hr : lines.foldl loadStep (Entry4.empty, []) with ⟨e', acc'⟩
    rw [hfold, loadStep_blank e' acc' "" rfl]
    by_cases he' : e' = Entry4.empty
    · simp [he']
    · simp [he']

/-- C8: create_gloss_vocab flattens the taxonomy tree depth-first into the
    ordered list of leaf gloss tags: on the tree [("A", ["x","y"]), "z"] it
    returns exactly ["x","y","z"]; as a pure function of its argument, repeated
    calls on the same tree necessarily return this same output. -/
theorem createGlossVocab_flattening :
    createGlossVocab
        [MorphItem.group "A" [MorphItem.leaf "x", MorphItem.leaf "y"], MorphItem.leaf "z"]
      = ["x", "y", "z"] := by
  simp [createGlossVocab, parseTreeGlosses]

/-- C9: taxonomic_loss rewrites its labels tensor in place (-100 ↦ 66) before
    computing the loss, and forward hands it a flattened view of the caller's
    labels tensor: after a forward call with labels, every position that held
    -100 holds 66, all other positions are unchanged, the caller's tensor
    contains no -100 entry any more, and (when it had one) it is not left
    unchanged. -/
theorem forward_mutates_labels (L : List (List ℤ)) (hmem : ∃ r ∈ L, (-100 : ℤ) ∈ r) :
    (∀ i, i < L.length → ∀ j, j < (L.getD i []).length →
      ((forwardLabelsAfter L).getD i []).getD j 0
        = (if (L.getD i []).getD j 0 = -100 then 66 else (L.getD i []).getD j 0))
    ∧ (∀ r ∈ forwardLabelsAfter L, ∀ x ∈ r, x ≠ -100)
    ∧ forwardLabelsAfter L ≠ L := by
  have hrow : ∀ i, i < L.length → (forwardLabelsAfter L).getD i [] = substLabels (L.getD i []) := by
    intro i hi
    simp [forwardLabelsAfter, List.getD_eq_getElem?_getD, List.getElem?_map,
      List.getElem?_eq_getElem hi]
  refine ⟨?_, ?_, ?_⟩
  · intro i hi j hj
    rw [hrow i hi]
    unfold substLabels
    rw [getD_map_lt substLabel _ j hj 0 0]
    rfl
  · intro r hr
    rcases List.mem_map.1 hr with ⟨r', _, rfl⟩
    exact substLabels_no_ignore r'
  · intro heq
    rcases hmem with ⟨r, hrL, hx⟩
    have hr' : r ∈ forwardLabelsAfter L := by rw [heq]; exact hrL
    rcases List.mem_map.1 hr' with ⟨r', _, hmap⟩
    exact substLabels_no_ignore r' (-100) (hmap ▸ hx) rfl

/-- C10: when the glosses field is absent, gloss_list returns the empty list —
    not Python None — for both values of the segmented flag, so a caller
    iterating it on a gloss-free record sees zero items. -/
theorem glossList_absent_returns_empty (line : IGTLine) (h : line.glosses = none) :
    glossList line true = .ok (some [])
    ∧ glossList line false = .ok (some [])
    ∧ ∀ seg : Bool, glossList line seg ≠ .ok none := by
  refine ⟨by simp [glossList, h], by simp [glossList, h], ?_⟩
  intro seg
  cases seg <;> simp [glossList, h]

/-- Witness for C4 at a concrete non-empty pending record and the literal blank
    line. -/
theorem loadDataFile_blank_and_eof_witness :
    pyStrip "" = ""
    ∧ (((⟨some "A", none, none, none⟩ : Entry4) ≠ Entry4.empty →
        loadStep ((⟨some "A", none, none, none⟩ : Entry4), []) ""
          = (Entry4.empty, [] ++ [mkIGTLine (some "A") none none none]))
      ∧ ((⟨some "A", none, none, none⟩ : Entry4) = Entry4.empty →
        loadStep ((⟨some "A", none, none, none⟩ : Entry4), []) ""
          = ((⟨some "A", none, none, none⟩ : Entry4), []))
      ∧ loadStep (loadStep ((⟨some "A", none, none, none⟩ : Entry4), []) "") ""
          = loadStep ((⟨some "A", none, none, none⟩ : Entry4), []) ""
      ∧ ∀ lines : List String, loadDataFile (lines ++ [""]) = loadDataFile lines) :=
  ⟨rfl, loadDataFile_blank_and_eof ⟨some "A", none, none, none⟩ [] "" rfl⟩

/-- Witness for C9 at the concrete labels tensor [[-100, 3]]. -/
theorem forward_mutates_labels_witness :
    (∃ r ∈ [[(-100 : ℤ), 3]], (-100 : ℤ) ∈ r)
    ∧ ((∀ i, i < ([[(-100 : ℤ), 3]] : List (List ℤ)).length →
        ∀ j, j < (([[(-100 : ℤ), 3]] : List (List ℤ)).getD i []).length →
          ((forwardLabelsAfter [[(-100 : ℤ), 3]]).getD i []).getD j 0
            = (if (([[(-100 : ℤ), 3]] : List (List ℤ)).getD i []).getD j 0 = -100 then 66
               else (([[(-100 : ℤ), 3]] : List (List ℤ)).getD i []).getD j 0))
      ∧ (∀ r ∈ forwardLabelsAfter [[(-100 : ℤ), 3]], ∀ x ∈ r, x ≠ -100)
      ∧ forwardLabelsAfter [[(-100 : ℤ), 3]] ≠ [[(-100 : ℤ), 3]]) :=
  ⟨by decide, forward_mutates_labels [[(-100 : ℤ), 3]] (by decide)⟩

/-- Witness for C10 at a concrete gloss-free record. -/
theorem glossList_absent_returns_empty_witness :
    (mkIGTLine (some "x") none none none).glosses = none
    ∧ (glossList (mkIGTLine (some "x") none none none) true = .ok (some [])
      ∧ glossList (mkIGTLine (some "x") none none none) false = .ok (some [])
      ∧ ∀ seg : Bool, glossList (mkIGTLine (some "x") none none none) seg ≠ .ok none) :=
  ⟨rfl, glossList_absent_returns_empty (mkIGTLine (some "x") none none none) rfl⟩

theorem mapM_option_length {α β : Type _} (g : α → Option β) :
    ∀ (l : List α) (l' : List β), l.mapM g = some l' → l'.length = l.length := by
  intro l
  induction l with
  | nil =>
    intro l' h
    rw [List.mapM_nil] at h
    cases h
    rfl
  | cons a as ih =>
    intro l' h
    rw [List.mapM_cons] at h
    cases hg : g a with
    | none => rw [hg] at h; simp at h
    | some b =>
      rw [hg] at h
      cases hmm : as.mapM g with
      | none => rw [hmm] at h; simp at h
      | some bs =>
        rw [hmm] at h
        have hl' : l' = b :: bs := by
          have := h
          simp at this
          exact this.symm
        subst hl'
        simp [ih bs hmm]

theorem mapM_option_map {α β : Type _} (g : α → Option β) (f : α → β) :
    ∀ l : List α, (∀ x ∈ l, g x = some (f x)) → l.mapM g = some (l.map f) := by
  intro l
  induction l with
  | nil => intro _; rw [List.mapM_nil]; rfl
  | cons a as ih =>
    intro h
    rw [List.mapM_cons, h a (List.mem_cons_self a as),
      ih (fun x hx => h x (List.mem_cons_of_mem a hx))]
    rfl

/-- The input/mask part of the process closure, for both the gloss and the
    no-gloss branch. -/
theorem processRow_mask (tok : WordLevelTok) (labels : List String) (ms : List String)
    (gl : Option (List String)) (r : EncodedRow)
    (hr : processRow tok labels ms gl = some r) :
    r.input_ids = ms.map tok.toId
        ++ List.replicate (tok.model_max_length - ms.length) tok.PAD_ID
    ∧ r.attention_mask = List.replicate ms.length 1
        ++ List.replicate (tok.model_max_length - ms.length) 0 := by
  unfold processRow at hr
  cases gl with
  | none =>
    simp only [] at hr
    cases hr
    exact ⟨by simp, by simp⟩
  | some gs =>
    cases hmm : gs.mapM (pyListIndex labels) with
    | none => simp only [hmm] at hr; exact Option.noConfusion hr
    | some oe =>
      simp only [hmm] at hr
      cases hr
      exact ⟨by simp, by simp⟩

/-- A successfully prepared row of an IGT line with a segmentation comes from
    the process closure on the line's morphemes. -/
theorem prepareDatasetRow_processRow (tokenize : String → List String)
    (tok : WordLevelTok) (labels : List String) (line : IGTLine) (seg : String)
    (hseg : line.segmentation = some seg) (r : EncodedRow)
    (hr : prepareDatasetRow tokenize tok labels line = some r) :
    ∃ gl, processRow tok labels (tokenize seg) gl = some r := by
  unfold prepareDatasetRow at hr
  rw [hseg] at hr
  cases hg : line.glosses with
  | none => rw [hg] at hr; exact ⟨none, hr⟩
  | some g =>
    rw [hg] at hr
    cases hgl : glossList line line.should_segment with
    | error u => rw [hgl] at hr; exact absurd hr (by simp)
    | ok gl => rw [hgl] at hr; exact ⟨gl, hr⟩

/-- C2: for any IGT line with a segmentation whose morpheme count is at most
    the encoder's maximum length 64, every example prepare_dataset produces for
    it has input_ids and attention_mask of length exactly 64, the mask being
    one leading 1 per morpheme followed by 0s over the padding. -/
theorem prepareDataset_shape (tokenize : String → List String) (tok : WordLevelTok)
    (h64 : tok.model_max_length = 64) (labels : List String) (line : IGTLine)
    (seg : String) (hseg : line.segmentation = some seg)
    (hcount : (tokenize seg).length ≤ 64) (r : EncodedRow)
    (hr : prepareDatasetRow tokenize tok labels line = some r) :
    r.input_ids.length = 64 ∧ r.attention_mask.length = 64
    ∧ r.attention_mask = List.replicate (tokenize seg).length 1
        ++ List.replicate (64 - (tokenize seg).length) 0 := by
  obtain ⟨gl, hpr⟩ := prepareDatasetRow_processRow tokenize tok labels line seg hseg r hr
  obtain ⟨hin, hmask⟩ := processRow_mask tok labels (tokenize seg) gl r hpr
  rw [h64] at hin hmask
  refine ⟨?_, ?_, hmask⟩
  · rw [hin]
    simp only [List.length_append, List.length_map, List.length_replicate]
    omega
  · rw [hmask]
    simp only [List.length_append, List.length_replicate]
    omega

/-- Witness for C2 at a concrete encoder, tokenizer, and gloss-free line. -/
theorem prepareDataset_shape_witness :
    tokW.model_max_length = 64
    ∧ lineW.segmentation = some "a"
    ∧ (tokenizeW "a").length ≤ 64
    ∧ prepareDatasetRow tokenizeW tokW [] lineW = some rowW
    ∧ (rowW.input_ids.length = 64 ∧ rowW.attention_mask.length = 64
      ∧ rowW.attention_mask = List.replicate (tokenizeW "a").length 1
          ++ List.replicate (64 - (tokenizeW "a").length) 0) :=
  ⟨rfl, rfl, by decide, by decide,
    prepareDataset_shape tokenizeW tokW rfl [] lineW "a" rfl (by decide) rowW (by decide)⟩

/-- C6: in the output of prepare_dataset for a line that has glosses, every
    padded label position — beyond the encoded gloss sequence, up to the fixed
    length — holds the ignore-index -100, which is no valid (non-negative)
    label index. -/
theorem prepareDataset_label_padding (tok : WordLevelTok) (labels : List String)
    (morphemes gs : List String) (r : EncodedRow) (enc : List ℤ)
    (hr : processRow tok labels morphemes (some gs) = some r)
    (henc : r.labels = some enc) :
    ∀ i, gs.length ≤ i → i < enc.length →
      enc.getD i 0 = -100 ∧ ∀ j : ℕ, enc.getD i 0 ≠ (j : ℤ) := by
  unfold processRow at hr
  cases hmm : gs.mapM (pyListIndex labels) with
  | none => simp only [hmm] at hr; exact Option.noConfusion hr
  | some oe =>
    simp only [hmm] at hr
    cases hr
    have hoelen : oe.length = gs.length := mapM_option_length _ _ _ hmm
    simp only [Option.some.injEq] at henc
    intro i hge hlt
    have hmaplen : (oe.map Int.ofNat).length = gs.length := by simp [hoelen]
    have hlt' : i < oe.length + (tok.model_max_length - oe.length) := by
      rw [← henc] at hlt
      simpa [List.length_append, List.length_map, List.length_replicate] using hlt
    have hval : enc.getD i 0 = -100 := by
      rw [← henc, List.getD_append_right _ _ _ _ (by simp only [List.length_map]; omega)]
      have hrep : i - oe.length < tok.model_max_length - oe.length := by omega
      simp [List.getD_eq_getElem?_getD, List.getElem?_replicate, List.length_map, hrep]
    exact ⟨hval, fun j hj => by rw [hval] at hj; omega⟩

/-- Witness for C6 at a concrete glossed line (one gloss, three padded label
    positions). -/
theorem prepareDataset_label_padding_witness :
    processRow tokV ["G1", "G2"] ["m"] (some ["G2"]) = some rowV
    ∧ rowV.labels = some [1, -100, -100, -100]
    ∧ (∀ i, (["G2"] : List String).length ≤ i → i < ([1, -100, -100, -100] : List ℤ).length →
        ([1, -100, -100, -100] : List ℤ).getD i 0 = -100
        ∧ ∀ j : ℕ, ([1, -100, -100, -100] : List ℤ).getD i 0 ≠ (j : ℤ)) :=
  ⟨by decide, rfl,
    prepareDataset_label_padding tokV ["G1", "G2"] ["m"] ["G2"] rowV
      [1, -100, -100, -100] (by decide) rfl⟩

theorem lookupCount_bumpCount_self (cs : List (String × ℕ)) (w : String) :
    lookupCount (bumpCount cs w) w = lookupCount cs w + 1 := by
  induction cs with
  | nil => simp [bumpCount, lookupCount]
  | cons p rest ih =>
    rcases p with ⟨x, n⟩
    by_cases hx : x = w
    · simp [bumpCount, lookupCount, hx]
    · simp [bumpCount, lookupCount, hx, ih]

theorem lookupCount_bumpCount_ne (cs : List (String × ℕ)) {v w : String} (h : v ≠ w) :
    lookupCount (bumpCount cs w) v = lookupCount cs v := by
  induction cs with
  | nil => simp [bumpCount, lookupCount, Ne.symm h]
  | cons p rest ih =>
    rcases p with ⟨x, n⟩
    by_cases hx : x = w
    · subst hx
      rw [show bumpCount ((x, n) :: rest) x = (x, n + 1) :: rest from by simp [bumpCount]]
      unfold lookupCount
      rw [if_neg (Ne.symm h), if_neg (Ne.symm h)]
    · rw [show bumpCount ((x, n) :: rest) w = (x, n) :: bumpCount rest w from by
        simp [bumpCount, hx]]
      unfold lookupCount
      by_cases hv : x = v
      · rw [if_pos hv, if_pos hv]
      · rw [if_neg hv, if_neg hv, ih]

theorem mem_keys_bumpCount (cs : List (String × ℕ)) (w v : String) :
    v ∈ (bumpCount cs w).map Prod.fst ↔ v ∈ cs.map Prod.fst ∨ v = w := by
  induction cs with
  | nil => simp [bumpCount, eq_comm]
  | cons p rest ih =>
    rcases p with ⟨x, n⟩
    by_cases hx : x = w
    · subst hx
      by_cases hv : v = x <;> simp [bumpCount, hv]
    · rw [show bumpCount ((x, n) :: rest) w = (x, n) :: bumpCount rest w from by
        simp [bumpCount, hx]]
      simp [ih, or_assoc]

theorem nodup_keys_bumpCount (cs : List (String × ℕ)) (w : String)
    (h : (cs.map Prod.fst).Nodup) : ((bumpCount cs w).map Prod.fst).Nodup := by
  induction cs with
  | nil => simp [bumpCount]
  | cons p rest ih =>
    rcases p with ⟨x, n⟩
    simp only [List.map_cons, List.nodup_cons] at h
    by_cases hx : x = w
    · rw [show bumpCount ((x, n) :: rest) w = (x, n + 1) :: rest from by
        simp [bumpCount, hx]]
      simp only [List.map_cons, List.nodup_cons]
      exact h
    · rw [show bumpCount ((x, n) :: rest) w = (x, n) :: bumpCount rest w from by
        simp [bumpCount, hx]]
      simp only [List.map_cons, List.nodup_cons]
      refine ⟨?_, ih h.2⟩
      intro hmem
      rcases (mem_keys_bumpCount rest w x).1 hmem with h1 | h2
      · exact h.1 h1
      · exact hx h2

theorem countStep_foldl_lookup (nl : Bool) :
    ∀ (stream : List String) (cs : List (String × ℕ)) (w : String), w ∉ specialChars →
      lookupCount (stream.foldl (countStep nl) cs) w
        = lookupCount cs w + (stream.map (normWord nl)).count w := by
  intro stream
  induction stream with
  | nil => intro cs w _; simp
  | cons tkn rest ih =>
    intro cs w hw
    rw [List.foldl_cons, ih (countStep nl cs tkn) w hw, List.map_cons, List.count_cons]
    by_cases heq : normWord nl tkn = w
    · have hbe : (normWord nl tkn == w) = true := beq_iff_eq.2 heq
      rw [if_pos hbe]
      unfold countStep
      have hsp : normWord nl tkn ∉ specialChars := by rw [heq]; exact hw
      rw [if_neg hsp, heq, lookupCount_bumpCount_self]
      omega
    · have hbe : ¬(normWord nl tkn == w) = true := by
        intro hb
        exact heq (beq_iff_eq.1 hb)
      rw [if_neg hbe, add_zero]
      unfold countStep
      by_cases hsp : normWord nl tkn ∈ specialChars
      · rw [if_pos hsp]
      · rw [if_neg hsp, lookupCount_bumpCount_ne _ (fun he => heq he.symm)]

theorem countStep_foldl_keys (nl : Bool) :
    ∀ (stream : List String) (cs : List (String × ℕ)) (v : String),
      v ∈ (stream.foldl (countStep nl) cs).map Prod.fst
        ↔ v ∈ cs.map Prod.fst ∨ (v ∉ specialChars ∧ v ∈ stream.map (normWord nl)) := by
  intro stream
  induction stream with
  | nil => intro cs v; simp
  | cons tkn rest ih =>
    intro cs v
    rw [List.foldl_cons, ih (countStep nl cs tkn) v]
    unfold countStep
    by_cases hsp : normWord nl tkn ∈ specialChars
    · rw [if_pos hsp]
      simp only [List.map_cons, List.mem_cons]
      constructor
      · rintro (h1 | h2)
        · exact Or.inl h1
        · exact Or.inr ⟨h2.1, Or.inr h2.2⟩
      · rintro (h1 | ⟨hv, hvm | hvm⟩)
        · exact Or.inl h1
        · exact absurd (hvm ▸ hsp) hv
        · exact Or.inr ⟨hv, hvm⟩
    · rw [if_neg hsp, mem_keys_bumpCount]
      simp only [List.map_cons, List.mem_cons]
      constructor
      · rintro ((h1 | h1) | h2)
        · exact Or.inl h1
        · exact Or.inr ⟨h1 ▸ hsp, Or.inl h1⟩
        · exact Or.inr ⟨h2.1, Or.inr h2.2⟩
      · rintro (h1 | ⟨hv, hvm | hvm⟩)
        · exact Or.inl (Or.inl h1)
        · exact Or.inl (Or.inr hvm)
        · exact Or.inr ⟨hv, hvm⟩

theorem countStep_foldl_nodup (nl : Bool) :
    ∀ (stream : List String) (cs : List (String × ℕ)),
      (cs.map Prod.fst).Nodup → ((stream.foldl (countStep nl) cs).map Prod.fst).Nodup := by
  intro stream
  induction stream with
  | nil => intro cs h; simpa using h
  | cons tkn rest ih =>
    intro cs h
    rw [List.foldl_cons]
    apply ih
    unfold countStep
    by_cases hsp : normWord nl tkn ∈ specialChars
    · rw [if_pos hsp]; exact h
    · rw [if_neg hsp]; exact nodup_keys_bumpCount cs (normWord nl tkn) h

theorem vocabCounts_eq_stream (sentences : List (Option (List String))) (nl : Bool) :
    vocabCounts sentences nl = ((sentences.filterMap id).flatten).foldl (countStep nl) [] := by
  suffices h : ∀ (ss : List (Option (List String))) (init : List (String × ℕ)),
      ss.foldl
        (fun cs sent =>
          match sent with
          | none => cs
          | some ws => ws.foldl (countStep nl) cs) init
        = ((ss.filterMap id).flatten).foldl (countStep nl) init by
    exact h sentences []
  intro ss
  induction ss with
  | nil => intro init; simp
  | cons sent rest ih =>
    intro init
    cases sent with
    | none => simp [ih]
    | some ws => simp [ih, List.foldl_append]

theorem lookupCount_of_mem {cs : List (String × ℕ)} (h : (cs.map Prod.fst).Nodup)
    {v : String} {n : ℕ} (hm : (v, n) ∈ cs) : lookupCount cs v = n := by
  induction cs with
  | nil => cases hm
  | cons p rest ih =>
    rcases p with ⟨x, k⟩
    simp only [List.map_cons, List.nodup_cons] at h
    rcases List.mem_cons.1 hm with heq | hmem
    · cases heq
      simp [lookupCount]
    · have hx : x ≠ v := by
        intro hxv
        exact h.1 (hxv ▸ (List.mem_map.2 ⟨(v, n), hmem, rfl⟩))
      simp [lookupCount, hx, ih h.2 hmem]

theorem mem_pair_of_mem_keys {cs : List (String × ℕ)} {v : String}
    (h : v ∈ cs.map Prod.fst) : (v, lookupCount cs v) ∈ cs := by
  induction cs with
  | nil => cases h
  | cons p rest ih =>
    rcases p with ⟨x, k⟩
    by_cases hx : x = v
    · subst hx
      simp [lookupCount]
    · rcases List.mem_cons.1 h with heq | hmem
      · exact absurd heq.symm hx
      · exact List.mem_cons.2 (Or.inr (by simpa [lookupCount, hx] using ih hmem))

/-- The membership characterization of create_vocab's output. -/
theorem createVocab_mem (s : List (Option (List String))) (t : ℕ) (nl : Bool)
    (w : String) :
    w ∈ createVocab s t nl
      ↔ w ∉ specialChars ∧ 1 ≤ streamCount s nl w ∧ t ≤ streamCount s nl w := by
  unfold createVocab
  rw [(List.perm_insertionSort _ _).mem_iff]
  have hk := countStep_foldl_nodup nl ((s.filterMap id).flatten) [] (by simp)
  rw [← vocabCounts_eq_stream] at hk
  constructor
  · intro hmem
    rcases List.mem_map.1 hmem with ⟨⟨v, n⟩, hpf, hfst⟩
    cases hfst
    rcases List.mem_filter.1 hpf with ⟨hpcs, hpt⟩
    have hkey : v ∈ (vocabCounts s nl).map Prod.fst := List.mem_map.2 ⟨(v, n), hpcs, rfl⟩
    rw [vocabCounts_eq_stream] at hkey
    have hkey2 := (countStep_foldl_keys nl _ [] v).1 hkey
    rcases hkey2 with h1 | h2
    · simp at h1
    · have hlook : lookupCount (vocabCounts s nl) v = n := lookupCount_of_mem hk hpcs
      have hcnt : lookupCount (vocabCounts s nl) v = streamCount s nl v := by
        rw [vocabCounts_eq_stream, countStep_foldl_lookup nl _ [] v h2.1]
        simp [streamCount, lookupCount]
      have hpt' : t ≤ n := by simpa using hpt
      refine ⟨h2.1, ?_, ?_⟩
      · unfold streamCount
        exact List.count_pos_iff.2 h2.2
      · rw [← hcnt, hlook]
        exact hpt'
  · rintro ⟨hsp, h1, ht⟩
    have hwmem : w ∈ ((s.filterMap id).flatten).map (normWord nl) := by
      apply List.count_pos_iff.1
      exact h1
    have hkey : w ∈ (vocabCounts s nl).map Prod.fst := by
      rw [vocabCounts_eq_stream]
      exact (countStep_foldl_keys nl _ [] w).2 (Or.inr ⟨hsp, hwmem⟩)
    have hcnt : lookupCount (vocabCounts s nl) w = streamCount s nl w := by
      rw [vocabCounts_eq_stream, countStep_foldl_lookup nl _ [] w hsp]
      simp [streamCount, lookupCount]
    refine List.mem_map.2 ⟨(w, lookupCount (vocabCounts s nl) w), ?_, rfl⟩
    refine List.mem_filter.2 ⟨mem_pair_of_mem_keys hkey, ?_⟩
    simp only [decide_eq_true_eq]
    omega

/-- C5: create_vocab returns the alphabetically sorted, deduplicated list of
    exactly those (normalised: lower-cased unless fully upper-case or lowering
    disabled) tokens of the non-absent sentences whose count reaches the
    threshold; the four special tokens are excluded from counting and never
    appear; the output is independent of the input order; and on
    [["run","RUN"], ["run","eat"]] with threshold 2 it is exactly ["run"]. -/
theorem createVocab_threshold_casing (s : List (Option (List String))) (t : ℕ)
    (nl : Bool) :
    (createVocab s t nl).Sorted (· ≤ ·)
    ∧ (createVocab s t nl).Nodup
    ∧ (∀ w, w ∈ createVocab s t nl ↔
        w ∉ specialChars ∧ 1 ≤ streamCount s nl w ∧ t ≤ streamCount s nl w)
    ∧ (∀ w ∈ specialChars, w ∉ createVocab s t nl)
    ∧ (∀ s₂, s₂.Perm s → createVocab s₂ t nl = createVocab s t nl)
    ∧ createVocab [some ["run", "RUN"], some ["run", "eat"]] 2 false = ["run"] := by
  have hsorted : ∀ s' : List (Option (List String)),
      (createVocab s' t nl).Sorted (· ≤ ·) := by
    intro s'
    unfold createVocab
    exact List.sorted_insertionSort _ _
  have hnodup : ∀ s' : List (Option (List String)), (createVocab s' t nl).Nodup := by
    intro s'
    unfold createVocab
    apply ((List.perm_insertionSort _ _).nodup_iff).2
    have hk := countStep_foldl_nodup nl ((s'.filterMap id).flatten) [] (by simp)
    rw [← vocabCounts_eq_stream] at hk
    exact hk.sublist ((List.filter_sublist _).map Prod.fst)
  refine ⟨hsorted s, hnodup s, fun w => createVocab_mem s t nl w, ?_, ?_, ?_⟩
  · intro w hw hmem
    exact ((createVocab_mem s t nl w).1 hmem).1 hw
  · intro s₂ hperm
    have hstream : ((s₂.filterMap id).flatten).Perm ((s.filterMap id).flatten) :=
      (hperm.filterMap id).flatten
    have hcnt : ∀ w, streamCount s₂ nl w = streamCount s nl w := by
      intro w
      unfold streamCount
      exact (hstream.map (normWord nl)).count_eq w
    apply List.eq_of_perm_of_sorted _ (hsorted s₂) (hsorted s)
    apply (List.perm_ext_iff_of_nodup (hnodup s₂) (hnodup s)).2
    intro w
    rw [createVocab_mem, createVocab_mem, hcnt w]
  · decide

/-- The matrix-building traversal never touches row 0 once start_tag is
    positive, and start_tag never decreases. -/
theorem parseTreeM_row0 :
    ∀ (items : List MorphItem) (pfx : List ℤ) (st : ℕ) (m : List (List ℤ)), 1 ≤ st →
      (parseTreeM items pfx st m).1.getD 0 [] = m.getD 0 []
      ∧ st ≤ (parseTreeM items pfx st m).2 := by
  intro items pfx st m
  induction items, pfx, st, m using parseTreeM.induct with
  | case1 pfx st m =>
    intro _
    simp [parseTreeM]
  | case2 item rest pfx m ih =>
    intro h1
    exact absurd h1 (by omega)
  | case3 rest pfx st m hst lbl children newPfx r ih1 ih1x ih2 =>
    intro h1
    have heq : parseTreeM (MorphItem.group lbl children :: rest) pfx st m
        = parseTreeM rest pfx
            (parseTreeM children
              (pfx ++ [(m.getD (st - 1) []).getD pfx.length 0 + 1]) st m).2
            (parseTreeM children
              (pfx ++ [(m.getD (st - 1) []).getD pfx.length 0 + 1]) st m).1 := by
      conv_lhs => rw [parseTreeM.eq_def]
      simp [if_neg hst]
    rw [heq]
    obtain ⟨hc1, hc2⟩ := ih1x h1
    obtain ⟨hr1, hr2⟩ := ih2 (le_trans h1 hc2)
    exact ⟨hr1.trans hc1, le_trans hc2 hr2⟩
  | case4 rest pfx st m hst tag newRow written ih =>
    intro h1
    have heq : parseTreeM (MorphItem.leaf tag :: rest) pfx st m
        = parseTreeM rest pfx (st + 1) (m.set st written) := by
      conv_lhs => rw [parseTreeM.eq_def]
      simp only [if_neg hst]
    rw [heq]
    obtain ⟨h2, h3⟩ := ih (by omega)
    refine ⟨?_, by omega⟩
    rw [h2]
    have hne : st ≠ 0 := by omega
    simp [List.getD_eq_getElem?_getD, List.getElem?_set_ne hne]

/-- C7: for every morphology tree and max_depth, the traversal behind
    get_hierarchy_matrix skips the start_tag == 0 case, so row 0 of the
    returned matrix is never assigned tree-derived values and keeps its initial
    all-zero contents, while writes only ever target rows with positive index. -/
theorem getHierarchyMatrix_row0 (tree : List MorphItem) (numTags maxDepth : ℕ)
    (h : 0 < numTags) :
    (getHierarchyMatrix tree numTags maxDepth).getD 0 [] = List.replicate maxDepth 0 := by
  unfold getHierarchyMatrix
  cases tree with
  | nil =>
    simp [parseTreeM, List.getD_eq_getElem?_getD, List.getElem?_replicate, h]
  | cons item rest =>
    have hskip : parseTreeM (item :: rest) [] 0
          (List.replicate numTags (List.replicate maxDepth 0))
        = parseTreeM rest [] 1 (List.replicate numTags (List.replicate maxDepth 0)) := by
      rw [parseTreeM.eq_def]
      simp
    rw [hskip,
      (parseTreeM_row0 rest [] 1 (List.replicate numTags (List.replicate maxDepth 0))
        (le_refl 1)).1]
    simp [List.getD_eq_getElem?_getD, List.getElem?_replicate, h]

/-- Witness for C7 at a one-leaf tree with a 2 × 3 matrix. -/
theorem getHierarchyMatrix_row0_witness :
    0 < 2
    ∧ (getHierarchyMatrix [MorphItem.leaf "a"] 2 3).getD 0 [] = List.replicate 3 0 :=
  ⟨by decide, getHierarchyMatrix_row0 [MorphItem.leaf "a"] 2 3 (by decide)⟩

theorem negLogSoftmax_nonneg (xs : List ℝ) (c : ℕ) (hc : c < xs.length) :
    0 ≤ negLogSoftmax xs c := by
  have hS : 0 < ∑ i ∈ Finset.range xs.length, Real.exp (xs.getD i 0) :=
    Finset.sum_pos (fun i _ => Real.exp_pos _) ⟨c, Finset.mem_range.2 hc⟩
  unfold negLogSoftmax
  rw [neg_nonneg]
  apply Real.log_nonpos
  · exact div_nonneg (Real.exp_pos _).le hS.le
  · rw [div_le_one hS]
    apply Finset.single_le_sum (fun i _ => (Real.exp_pos _).le) (Finset.mem_range.2 hc)

theorem ceMean_nonneg (logitRows : List (List ℝ)) (ts : List ℤ) (G : ℕ)
    (hrows : ∀ r ∈ logitRows, r.length = G)
    (hts : ∀ t ∈ ts, t = -100 ∨ (0 ≤ t ∧ t < (G : ℤ))) :
    0 ≤ ceMean logitRows ts := by
  unfold ceMean
  apply div_nonneg _ (Nat.cast_nonneg _)
  apply List.sum_nonneg
  intro x hx
  rcases List.mem_map.1 hx with ⟨p, hp, rfl⟩
  rcases List.mem_filter.1 hp with ⟨hpz, hpne⟩
  have hmem := List.of_mem_zip hpz
  have hne : p.2 ≠ -100 := by simpa using hpne
  rcases hts p.2 hmem.2 with h | h
  · exact absurd h hne
  · apply negLogSoftmax_nonneg
    rw [hrows p.1 hmem.1]
    omega

theorem validHierarchyMatrix_spec {M : List (List ℤ)}
    (hM : validHierarchyMatrix M = true) :
    M.length = 66
    ∧ ∀ lvl, lvl < 5 →
        groupKeys M lvl = (List.range (groupKeys M lvl).length).map Int.ofNat := by
  unfold validHierarchyMatrix at hM
  simp only [Bool.and_eq_true, decide_eq_true_eq, List.all_eq_true] at hM
  exact ⟨hM.1.1, fun lvl hlvl => hM.2 lvl (List.mem_range.2 hlvl)⟩

theorem colVal_mem_groupKeys (M : List (List ℤ)) (lvl : ℕ) (i : ℕ) (hi : i < M.length) :
    (M.getD i []).getD lvl 0 ∈ groupKeys M lvl := by
  unfold groupKeys
  rw [(List.perm_insertionSort _ _).mem_iff, List.mem_dedup,
    show (M.getD i []).getD lvl 0 = (M.map (fun r => r.getD lvl 0)).getD i 0 from
      (getD_map_lt (fun r => r.getD lvl 0) M i hi 0 []).symm]
  rw [List.getD_eq_getElem?_getD, List.getElem?_eq_getElem (by simpa using hi)]
  exact List.getElem_mem _

theorem keys_mem_bound {M : List (List ℤ)} {lvl : ℕ}
    (hkeys : groupKeys M lvl = (List.range (groupKeys M lvl).length).map Int.ofNat)
    {t : ℤ} (ht : t ∈ groupKeys M lvl) :
    0 ≤ t ∧ t < ((groupKeys M lvl).length : ℤ) := by
  rw [hkeys] at ht
  rcases List.mem_map.1 ht with ⟨j, hj, rfl⟩
  have hjr := List.mem_range.1 hj
  constructor
  · exact Int.ofNat_nonneg j
  · rw [Int.ofNat_eq_natCast]
    exact_mod_cast hjr

theorem lookupGroupLabel_inrange (M : List (List ℤ)) (lvl : ℕ) (x : ℤ)
    (h0 : 0 ≤ x) (h1 : x ≤ (M.length : ℤ)) :
    lookupGroupLabel M lvl x = some (tgtVal M lvl x) := by
  unfold lookupGroupLabel tgtVal
  have hx0 : ¬x < 0 := by omega
  simp only [if_neg hx0]
  rw [if_pos ⟨h0, h1⟩]
  by_cases hx : x = (M.length : ℤ) <;> simp [hx]

theorem substLabels_bounds {labels : List ℤ} (h : labels.all validLabel = true) :
    ∀ x ∈ substLabels labels, 0 ≤ x ∧ x ≤ 66 := by
  intro x hx
  rcases List.mem_map.1 hx with ⟨y, hy, rfl⟩
  have hv := List.all_eq_true.1 h y hy
  simp only [validLabel, decide_eq_true_eq] at hv
  unfold substLabel
  rcases hv with h1 | h2
  · simp [h1]
  · rw [if_neg (by omega)]
    omega

theorem levelTargets_subst {M : List (List ℤ)} (hM : validHierarchyMatrix M = true)
    {labels : List ℤ} (hlab : labels.all validLabel = true) (lvl : ℕ) :
    levelTargets M lvl (substLabels labels)
      = some ((substLabels labels).map (tgtVal M lvl)) := by
  apply mapM_option_map
  intro x hx
  have hb := substLabels_bounds hlab x hx
  have h66 : M.length = 66 := (validHierarchyMatrix_spec hM).1
  exact lookupGroupLabel_inrange M lvl x hb.1 (by rw [h66]; exact_mod_cast hb.2)

theorem tgtVal_valid {M : List (List ℤ)} (hM : validHierarchyMatrix M = true)
    {lvl : ℕ} (hlvl : lvl < 5) {x : ℤ} (hx : 0 ≤ x ∧ x ≤ 66) :
    tgtVal M lvl x = -100
    ∨ (0 ≤ tgtVal M lvl x ∧ tgtVal M lvl x < ((groupKeys M lvl).length : ℤ)) := by
  obtain ⟨h66, hkeys⟩ := validHierarchyMatrix_spec hM
  unfold tgtVal
  by_cases hxn : x = (M.length : ℤ)
  · simp [hxn]
  · rw [if_neg hxn]
    right
    have hxlt : x.toNat < M.length := by omega
    exact keys_mem_bound (hkeys lvl hlvl) (colVal_mem_groupKeys M lvl x.toNat hxlt)

theorem levelLoss_eq {M : List (List ℤ)} (hM : validHierarchyMatrix M = true)
    {logits : List (List ℝ)} {labels : List ℤ} (hlen : logits.length = labels.length)
    (hlab : labels.all validLabel = true) {lvl : ℕ} (hlvl : lvl < 5) :
    levelLoss M logits (substLabels labels) lvl
      = some (levelLossVal M logits (substLabels labels) lvl)
    ∧ 0 ≤ levelLossVal M logits (substLabels labels) lvl := by
  have hts := levelTargets_subst hM hlab lvl
  have htsval : ∀ t ∈ (substLabels labels).map (tgtVal M lvl),
      t = -100 ∨ (0 ≤ t ∧ t < ((groupKeys M lvl).length : ℤ)) := by
    intro t ht
    rcases List.mem_map.1 ht with ⟨x, hx, rfl⟩
    exact tgtVal_valid hM hlvl (substLabels_bounds hlab x hx)
  have hvalid : targetsValid (groupKeys M lvl).length
      ((substLabels labels).map (tgtVal M lvl)) = true := by
    rw [targetsValid, List.all_eq_true]
    intro t ht
    rw [decide_eq_true_eq]
    exact htsval t ht
  have hlen' : logits.length = (substLabels labels).length := by
    rw [hlen]
    unfold substLabels
    rw [List.length_map]
  constructor
  · unfold levelLoss
    rw [hts]
    show (if logits.length = (substLabels labels).length
          ∧ targetsValid (groupKeys M lvl).length
              (List.map (tgtVal M lvl) (substLabels labels)) = true
        then some (ceMean (List.map (groupLogitsRow M lvl) logits)
          (List.map (tgtVal M lvl) (substLabels labels)))
        else none)
      = some (levelLossVal M logits (substLabels labels) lvl)
    rw [if_pos ⟨hlen', hvalid⟩]
    unfold levelLossVal
    rw [hts]
    simp only [Option.getD_some]
  · unfold levelLossVal
    rw [hts]
    simp only [Option.getD_some]
    apply ceMean_nonneg _ _ (groupKeys M lvl).length
    · intro r hr
      rcases List.mem_map.1 hr with ⟨row, _, rfl⟩
      unfold groupLogitsRow
      rw [List.length_map]
    · exact htsval

/-- C1: with a valid hierarchy matrix installed and a batch of logits and
    pipeline labels (each -100 or a flat id below 66), taxonomic_loss raises
    nothing and returns a single scalar equal to the sum of the 5 per-level
    cross-entropy terms, each computed between per-group summed logits and the
    hierarchy-matrix-derived group labels after the -100 ↦ 66 sentinel
    substitution, and each term is non-negative; in particular a fully masked
    batch (all labels -100) is accepted without raising. -/
theorem taxonomicLoss_level_summed_nonneg (M : List (List ℤ)) (logits : List (List ℝ))
    (labels : List ℤ) (hM : validHierarchyMatrix M = true)
    (hlen : logits.length = labels.length) (hlab : labels.all validLabel = true) :
    taxonomicLoss M logits labels
      = some (some (∑ lvl ∈ Finset.range 5,
          levelLossVal M logits (substLabels labels) lvl))
    ∧ ∀ lvl, lvl < 5 → 0 ≤ levelLossVal M logits (substLabels labels) lvl := by
  have h0 := levelLoss_eq hM hlen hlab (show (0 : ℕ) < 5 by omega)
  have h1 := levelLoss_eq hM hlen hlab (show (1 : ℕ) < 5 by omega)
  have h2 := levelLoss_eq hM hlen hlab (show (2 : ℕ) < 5 by omega)
  have h3 := levelLoss_eq hM hlen hlab (show (3 : ℕ) < 5 by omega)
  have h4 := levelLoss_eq hM hlen hlab (show (4 : ℕ) < 5 by omega)
  refine ⟨?_, ?_⟩
  · unfold taxonomicLoss
    rw [show List.range 5 = [0, 1, 2, 3, 4] from rfl]
    simp only [List.foldl_cons, List.foldl_nil, h0.1, h1.1, h2.1, h3.1, h4.1]
    rw [Finset.sum_range_succ, Finset.sum_range_succ, Finset.sum_range_succ,
      Finset.sum_range_succ, Finset.sum_range_one]
  · intro lvl hlvl
    interval_cases lvl
    exacts [h0.2, h1.2, h2.2, h3.2, h4.2]

/-- Witness for C1 at the flat 66-row matrix, one all-zero logit row, and a
    fully masked batch (the single label -100). -/
theorem taxonomicLoss_level_summed_nonneg_witness :
    validHierarchyMatrix flatMatrix66 = true
    ∧ ([List.replicate 66 (0 : ℝ)] : List (List ℝ)).length = [(-100 : ℤ)].length
    ∧ ([(-100 : ℤ)] : List ℤ).all validLabel = true
    ∧ (taxonomicLoss flatMatrix66 [List.replicate 66 (0 : ℝ)] [(-100 : ℤ)]
        = some (some (∑ lvl ∈ Finset.range 5,
            levelLossVal flatMatrix66 [List.replicate 66 (0 : ℝ)]
              (substLabels [(-100 : ℤ)]) lvl))
      ∧ ∀ lvl, lvl < 5 →
          0 ≤ levelLossVal flatMatrix66 [List.replicate 66 (0 : ℝ)]
              (substLabels [(-100 : ℤ)]) lvl) :=
  ⟨by decide, rfl, by decide,
    taxonomicLoss_level_summed_nonneg flatMatrix66 [List.replicate 66 (0 : ℝ)]
      [(-100 : ℤ)] (by decide) rfl (by decide)⟩
